import Mathlib

/-!
Verification of the JABS behavior classifier pose/feature pipeline.

The definitions below are a shallow embedding of the repository's code:
numpy arrays become total functions over `Nat` indices (with the source's
array dimensions carried alongside), floats become rationals or reals, and
Python `None` results become `Option.none`.
-/

namespace JABS

/-- A label value as used by the label-track component:
BEHAVIOR, NOT_BEHAVIOR, NONE (spec sections 3 and 6). -/
inductive Label where
  | behavior
  | not_behavior
  | none_
deriving DecidableEq, Repr

namespace PoseV4

/-- Raw contents of a version-4 pose estimation HDF5 file, as read in
`PoseEstimationV4.__init__` (`src/pose_estimation/pose_est_v4.py`):
`all_points` has shape (frame, instance, keypoint, 2), `all_confidence`
shape (frame, instance, keypoint), `id_mask` shape (frame, instance)
(`true` = masked / invalid detection, matching numpy masked-array and the
source's `id_mask == 0` selection of valid entries), `embed_id` is the
1-based `instance_embed_id` dataset, and `version` is
`pose_grp.attrs['version'][0]`. -/
structure PoseFileV4 where
  frames : Nat
  instances : Nat
  keypoints : Nat
  all_points : Nat → Nat → Nat → ℚ × ℚ
  all_confidence : Nat → Nat → Nat → ℚ
  id_mask : Nat → Nat → Bool
  embed_id : Nat → Nat → Nat
  version : Nat

/-- Instances of frame `f` that are valid (that is, `id_mask == 0`),
in instance order. -/
def validInstances (file : PoseFileV4) (f : Nat) : List Nat :=
  (List.range file.instances).filter (fun j => file.id_mask f j = false)

/-- All `instance_embed_id` values taken under the mask (the entries the
masked array `np.ma.array(instance_embed_id, mask=id_mask)` keeps). -/
def validEmbeds (file : PoseFileV4) : List Nat :=
  (List.range file.frames).flatMap
    (fun f => (validInstances file f).map (file.embed_id f))

/-- `self._num_identities = np.max(np.ma.array(instance_embed_id, mask=id_mask))`:
the largest embed id among unmasked detections (0 when every entry is
masked). -/
def num_identities (file : PoseFileV4) : Nat :=
  (validEmbeds file).foldr max 0

/-- `self._identities = [*range(self._num_identities)]`. -/
def identities (file : PoseFileV4) : List Nat :=
  List.range (num_identities file)

/-- The last valid instance of frame `f` carrying embed id `i + 1`; the
numpy scatter `points_by_id_tmp[frames, embed_id - 1] = all_points[...]`
writes instances in order, so for duplicate target indices the last valid
instance wins. -/
def scatterIndex (file : PoseFileV4) (f i : Nat) : Option Nat :=
  ((validInstances file f).filter (fun j => file.embed_id f j = i + 1)).getLast?

/-- `self._points` after the scatter and the transpose to
(identity, frame, keypoint, 2); absent entries stay zero-filled. -/
def points (file : PoseFileV4) (i f k : Nat) : ℚ × ℚ :=
  match scatterIndex file f i with
  | some j => file.all_points f j k
  | none => (0, 0)

/-- `confidence_by_id` after the scatter and the transpose to
(identity, frame, keypoint). -/
def confidence_by_id (file : PoseFileV4) (i f k : Nat) : ℚ :=
  match scatterIndex file f i with
  | some j => file.all_confidence f j k
  | none => 0

/-- `self._point_mask = confidence_by_id > 0`. -/
def point_mask (file : PoseFileV4) (i f k : Nat) : Bool :=
  decide (0 < confidence_by_id file i f k)

/-- `self._identity_mask`: per (identity, frame),
`0 if np.sum(self._point_mask[x][y][:-2]) == 0 else 1` — true exactly when
the count of confident keypoints among the first `keypoints - 2` is
non-zero. -/
def identity_mask (file : PoseFileV4) (i f : Nat) : Bool :=
  !(((List.range (file.keypoints - 2)).countP
      (fun k => point_mask file i f k)) == 0)

/-- `PoseEstimationV4.get_points(frame_index, identity)`: returns the pair
`(None, None)` when the identity mask is false at that frame, otherwise
the stored points row and point-mask row. -/
def get_points (file : PoseFileV4) (frame_index identity : Nat) :
    Option (Nat → ℚ × ℚ) × Option (Nat → Bool) :=
  if identity_mask file identity frame_index = false then
    (none, none)
  else
    (some (fun k => points file identity frame_index k),
     some (fun k => point_mask file identity frame_index k))

/-- Modelled from the spec: `get_points(frame, identity[, scale])` with the
optional scale parameter of spec section 4.1 ("optionally rescaled by
multiplying coordinates by `scale`") and of the repository's own test
`test_scaling_points`. The scale parameter is absent from
`PoseEstimationV4.get_points` under src, so the intended behavior is
modelled here: with a scale, every returned coordinate is multiplied by
it; the mask and the absent case are unchanged. -/
def get_points_scaled (file : PoseFileV4) (frame_index identity : Nat)
    (scale : Option ℚ) : Option (Nat → ℚ × ℚ) × Option (Nat → Bool) :=
  if identity_mask file identity frame_index = false then
    (none, none)
  else
    match scale with
    | none =>
        (some (fun k => points file identity frame_index k),
         some (fun k => point_mask file identity frame_index k))
    | some s =>
        (some (fun k =>
            (s * (points file identity frame_index k).1,
             s * (points file identity frame_index k).2)),
         some (fun k => point_mask file identity frame_index k))

/-- A pose reader object as produced by opening a pose file; the V3 and V5
readers are not under src, so only their version reporting is modelled. -/
inductive PoseReader where
  | v3Est
  | v4Est (file : PoseFileV4)
  | v5Est

/-- `format_major_version`: the V4 value (the constant 4) is from
`PoseEstimationV4.format_major_version`; the V3 and V5 values are
modelled from the spec (each version's reader reports its own version). -/
def format_major_version : PoseReader → Nat
  | .v3Est => 3
  | .v4Est _ => 4
  | .v5Est => 5

/-- Modelled from the spec: the `open_pose_file` dispatcher (not under
src) reads the file's version attribute and hands the file to the reader
for that version, failing with `UnsupportedFormat` (here `none`) on any
other version (spec sections 4.1 and 6). -/
def open_pose_file (file : PoseFileV4) : Option PoseReader :=
  match file.version with
  | 3 => some .v3Est
  | 4 => some (.v4Est file)
  | 5 => some .v5Est
  | _ => none

/-- A concrete two-frame, one-instance pose file used by the witnesses:
the single detection is valid with embed id 1, all confidences are 1 on
frame 0 and 0 on frame 1. -/
def sampleFile : PoseFileV4 where
  frames := 2
  instances := 1
  keypoints := 12
  all_points := fun _ _ _ => (3, 4)
  all_confidence := fun f _ _ => if f = 0 then 1 else 0
  id_mask := fun _ _ => false
  embed_id := fun _ _ => 1
  version := 4

end PoseV4

namespace SafeName

/-- ASCII alphanumeric test: the character class `[0-9a-zA-Z]` of the
regular expressions in `Project.to_safe_name`
(`src/project/project.py`). -/
def isAlnumAscii (c : Char) : Bool :=
  (decide ('0' ≤ c) && decide (c ≤ '9')) ||
  (decide ('a' ≤ c) && decide (c ≤ 'z')) ||
  (decide ('A' ≤ c) && decide (c ≤ 'Z'))

/-- `re.sub('[^0-9a-zA-Z]+', '_', s)`: each maximal run of characters
outside `[0-9a-zA-Z]` becomes a single underscore. The boolean state
records whether the previous character was inside such a run. -/
def subNonAlnumAux : Bool → List Char → List Char
  | _, [] => []
  | inRun, c :: cs =>
    if isAlnumAscii c then c :: subNonAlnumAux false cs
    else if inRun then subNonAlnumAux true cs
    else '_' :: subNonAlnumAux true cs

/-- The first regex substitution of `Project.to_safe_name`. -/
def subNonAlnum (l : List Char) : List Char := subNonAlnumAux false l

/-- `.rstrip('_')`: drop trailing underscores. -/
def rstripUnderscore (l : List Char) : List Char :=
  (l.reverse.dropWhile (fun c => c == '_')).reverse

/-- `re.sub('_{2,}', '_', s)`: each run of two or more underscores becomes
a single underscore. The boolean state records whether the previous
character was an underscore. -/
def collapseAux : Bool → List Char → List Char
  | _, [] => []
  | prev, c :: cs =>
    if c == '_' then
      if prev then collapseAux true cs else '_' :: collapseAux true cs
    else c :: collapseAux false cs

/-- `Project.to_safe_name` (`src/project/project.py`): substitute runs of
non-alphanumeric characters with `_`, strip trailing underscores, then
collapse consecutive underscores. -/
def to_safe_name (behavior : String) : String :=
  ⟨collapseAux false (rstripUnderscore (subNonAlnum behavior.data))⟩

/-- Two adjacent characters are not both underscores. -/
def noDoubleUnderscore (a b : Char) : Prop := ¬(a = '_' ∧ b = '_')

end SafeName

namespace Labels

/-- One run-length block of a label track as serialized to JSON: inclusive
`start`/`stop` frame indices (the JSON field for `stop` is named `end`)
and whether the behavior is present over the run. The block consumers in
`src/project/project.py` (`__read_counts`, `archive_behavior`) read
exactly these fields. -/
structure LabelBlock where
  start : Nat
  stop : Nat
  present : Bool
deriving DecidableEq, Repr

/-- Modelled from the spec: `TrackLabels` (`src/project/track_labels.py`
is not under src; spec section 3) — a per-(identity, behavior) label
sequence over frame indices with values BEHAVIOR, NOT_BEHAVIOR, NONE,
here kept as its decoded per-frame label array. -/
structure TrackLabels where
  labels : List Label
deriving DecidableEq, Repr

/-- The per-frame label a block encodes. -/
def blockValue (b : LabelBlock) : Label :=
  if b.present then Label.behavior else Label.not_behavior

/-- Modelled from the spec: run-length encoding used by
`TrackLabels.export` — maximal runs of equal non-NONE labels become
blocks (sorted, non-overlapping, contiguous-covering with NONE gaps,
spec section 3); `i` is the frame index of the head of the list. -/
def encodeFrom : Nat → List Label → List LabelBlock
  | _, [] => []
  | i, x :: xs =>
    if x = Label.none_ then encodeFrom (i + 1) xs
    else
      LabelBlock.mk i (i + (xs.takeWhile (fun y => decide (y = x))).length)
          (decide (x = Label.behavior)) ::
        encodeFrom (i + (xs.takeWhile (fun y => decide (y = x))).length + 1)
          (xs.dropWhile (fun y => decide (y = x)))
termination_by _ l => l.length
decreasing_by
  · simp
  · have h := (List.dropWhile_sublist (fun y => decide (y = x))
      (l := xs)).length_le
    simp only [List.length_cons]
    omega

/-- `TrackLabels.export`: the run-length blocks of the track. -/
def TrackLabels.export (t : TrackLabels) : List LabelBlock :=
  encodeFrom 0 t.labels

/-- The label of frame `f` under a block list: the first block covering
`f`, NONE when no block does. -/
def decodeAt (blocks : List LabelBlock) (f : Nat) : Label :=
  ((blocks.find?
      (fun b => decide (b.start ≤ f) && decide (f ≤ b.stop))).map
    blockValue).getD Label.none_

/-- Modelled from the spec: `TrackLabels.load(num_frames, blocks)` — a
frame array of `num_frames` entries, NONE outside every block and the
block's value inside it (the blocks are non-overlapping, so taking the
first covering block matches scattering them over a NONE-filled array). -/
def TrackLabels.load (n : Nat) (blocks : List LabelBlock) : TrackLabels :=
  ⟨(List.range n).map (decodeAt blocks)⟩

/-- `VideoLabels` (`src/labeler/video_labels.py`): a filename, a frame
count, and per-identity per-behavior label tracks; the Python dicts keyed
by identity and behavior strings become association lists. -/
structure VideoLabels where
  filename : String
  num_frames : Nat
  identity_labels : List (String × List (String × TrackLabels))
deriving DecidableEq, Repr

/-- The JSON-serializable nested dict produced by `VideoLabels.export`. -/
structure VideoLabelsExport where
  file : String
  num_frames : Nat
  labels : List (String × List (String × List LabelBlock))
deriving DecidableEq, Repr

/-- `VideoLabels.export`: exports every identity's every behavior track. -/
def VideoLabels.export (v : VideoLabels) : VideoLabelsExport :=
  ⟨v.filename, v.num_frames,
    v.identity_labels.map
      (fun p => (p.1, p.2.map (fun q => (q.1, q.2.export))))⟩

/-- `VideoLabels.load`: rebuilds a `VideoLabels` from an exported dict,
loading each track with the exported `num_frames`. -/
def VideoLabels.load (d : VideoLabelsExport) : VideoLabels :=
  ⟨d.file, d.num_frames,
    d.labels.map
      (fun p => (p.1, p.2.map
        (fun q => (q.1, TrackLabels.load d.num_frames q.2))))⟩

/-- A concrete `VideoLabels` used by the round-trip witness. -/
def sampleVideoLabels : VideoLabels :=
  ⟨"vid.avi", 5,
    [("0", [("walking", ⟨[Label.behavior, Label.behavior, Label.none_,
                          Label.not_behavior, Label.none_]⟩)]),
     ("1", [])]⟩

end Labels

namespace Proj

/-- The inputs `Project.get_labeled_features` consumes for one behavior
(`src/project/project.py`): the project directory's video file listing,
each video's identity count (its pose file's `identities` list is
`range(num_identities)`, as the V4 loader builds it), and each
(video, identity)'s frame-aligned label vector for the behavior. -/
structure LabeledFeaturesInput where
  video_files : List String
  nidentities : String → Nat
  labels : String → Nat → List Label

/-- `self._videos.sort()` in `Project.__init__`: the video list iterated
by `get_labeled_features` is the lexicographically sorted directory
listing. -/
def sortedVideos (P : LabeledFeaturesInput) : List String :=
  P.video_files.mergeSort (fun a b => decide (a ≤ b))

/-- `labels[labels != TrackLabels.Label.NONE]`: the non-NONE labels of
one (video, identity), in frame order. -/
def nonNoneLabels (P : LabeledFeaturesInput) (v : String) (i : Nat) :
    List Label :=
  (P.labels v i).filter (fun x => decide (x ≠ Label.none_))

/-- Modelled from the spec: `IdentityFeatures.get_per_frame(labels)` is
not under src; per spec sections 4.5 and 6 the produced feature arrays are
restricted to the frames with a non-NONE label, so
`per_frame_features['angles'].shape[0]` — the block length the source
reads — is the count of non-NONE labels. -/
def blockLen (P : LabeledFeaturesInput) (v : String) (i : Nat) : Nat :=
  (nonNoneLabels P v i).length

/-- The body of `get_labeled_features` for the identities of one video:
for each identity, append its non-NONE labels to `all_labels` and a
constant block `np.full(shape[0], group_id)` to `all_groups`, then
increment `group_id`. Returns both block lists and the next group id. -/
def identityLoop (P : LabeledFeaturesInput) (v : String) :
    List Nat → Nat → List (List Label) × List (List Nat) × Nat
  | [], gid => ([], [], gid)
  | i :: is, gid =>
    let rest := identityLoop P v is (gid + 1)
    (nonNoneLabels P v i :: rest.1,
     List.replicate (blockLen P v i) gid :: rest.2.1,
     rest.2.2)

/-- The outer loop of `get_labeled_features` over the sorted videos,
threading `group_id` through. -/
def videoLoop (P : LabeledFeaturesInput) :
    List String → Nat → List (List Label) × List (List Nat)
  | [], _ => ([], [])
  | v :: vs, gid =>
    let inner := identityLoop P v (List.range (P.nidentities v)) gid
    let rest := videoLoop P vs inner.2.2
    (inner.1 ++ rest.1, inner.2.1 ++ rest.2)

/-- The `'labels'` entry of `get_labeled_features`:
`np.concatenate(all_labels)`. -/
def labelsVector (P : LabeledFeaturesInput) : List Label :=
  (videoLoop P (sortedVideos P) 0).1.flatten

/-- The `'groups'` entry of `get_labeled_features`:
`np.concatenate(all_groups)`. -/
def groupsVector (P : LabeledFeaturesInput) : List Nat :=
  (videoLoop P (sortedVideos P) 0).2.flatten

/-- The traversal order of (video, identity) blocks: sorted videos, and
within each video the ascending identities `0 .. nidentities - 1`. -/
def traversal (P : LabeledFeaturesInput) : List (String × Nat) :=
  (sortedVideos P).flatMap
    (fun v => (List.range (P.nidentities v)).map (fun i => (v, i)))

end Proj

namespace Circ

open Real

/-- The angle in radians that scipy's circular statistics assign to a
sample `x` for the domain bounds `low = -180`, `high = 180` used by
`ClosestFovAngles._window_operations_circular_2`
(`src/feature_extraction/social_features/closest_fov_angles.py`):
`ang = (x - low) * 2*pi / (high - low)`. -/
noncomputable def degToAng (x : ℝ) : ℝ :=
  (x - (-180)) * (2 * π) / (180 - (-180))

/-- The summed unit vectors of the samples,
`cos_sum + i * sin_sum`; scipy's `arctan2(sin_sum, cos_sum)` is the
complex argument of this sum. -/
noncomputable def resultant (xs : List ℝ) : ℂ :=
  (xs.map (fun x => Complex.exp ((degToAng x : ℂ) * Complex.I))).sum

/-- `scipy.stats.circmean(x, low=-180, high=180)`, the `"mean"` entry of
`ClosestFovAngles._window_operations_circular_2`:
`res = arctan2(sin_sum, cos_sum) mod 2*pi`, returned as
`res * (high - low) / (2*pi) + low`. -/
noncomputable def circular_mean (xs : List ℝ) : ℝ :=
  toIcoMod Real.two_pi_pos 0 (Complex.arg (resultant xs)) *
    (180 - (-180)) / (2 * π) + (-180)

/-- `scipy.stats.circstd(x, low=-180, high=180)`, the `"std_dev"` entry
of the same dict: `sqrt(-2 * log R)` rescaled to degrees, where `R` is the
mean resultant length. -/
noncomputable def circular_std (xs : List ℝ) : ℝ :=
  Real.sqrt (-2 * Real.log (Complex.abs (resultant xs) / xs.length)) *
    (180 - (-180)) / (2 * π)

/-- `ClosestFovAngles._window_operations_circular_2`: the statistic
functions the angular generator substitutes for the linear window mean
and standard deviation (`ClosestFovAngles.window` routes window
computation through these circular operations). -/
noncomputable def window_operations_circular_2 :
    List (String × (List ℝ → ℝ)) :=
  [("mean", circular_mean), ("std_dev", circular_std)]

/-- Re-wrapping an angle into the circular domain [-180, 180). -/
noncomputable def wrap360 (y : ℝ) : ℝ :=
  toIcoMod (by norm_num : (0:ℝ) < 360) (-180) y

end Circ

end JABS

namespace JABS

open PoseV4

/-- C1: for every (identity, frame) pair where the identity mask is false,
`PoseEstimationV4.get_points` returns `(None, None)` — an explicit "no
value" result for both components — and for every pair where the mask is
true it returns the stored points row and point-mask row for that identity
and frame. -/
theorem get_points_spec (file : PoseFileV4) (i f : Nat) :
    (identity_mask file i f = false → get_points file f i = (none, none)) ∧
    (identity_mask file i f = true →
      get_points file f i =
        (some (fun k => points file i f k),
         some (fun k => point_mask file i f k))) := by
  constructor
  · intro h
    simp [get_points, h]
  · intro h
    simp [get_points, h]

/-- Witness for C1: on the sample file identity 0 is present at frame 0
and absent at frame 1, and `get_points` behaves as stated at both. -/
theorem get_points_spec_witness :
    (identity_mask sampleFile 0 1 = false ∧
      get_points sampleFile 1 0 = (none, none)) ∧
    (identity_mask sampleFile 0 0 = true ∧
      get_points sampleFile 0 0 =
        (some (fun k => points sampleFile 0 0 k),
         some (fun k => point_mask sampleFile 0 0 k))) := by
  refine ⟨⟨by decide, (get_points_spec sampleFile 0 1).1 (by decide)⟩,
    ⟨by decide, (get_points_spec sampleFile 0 0).2 (by decide)⟩⟩

/-- C2 (intended behavior; the src code lacks the scale parameter): for
every (frame, identity) pair and every scale, the points returned with a
scale equal the points returned without one with each coordinate
multiplied by the scale, the mask component is unchanged, and the
no-scale call agrees with the source's `get_points`. -/
theorem get_points_scaled_mul (file : PoseFileV4) (f i : Nat) (s : ℚ) :
    (get_points_scaled file f i (some s)).1 =
      (get_points_scaled file f i none).1.map
        (fun pts => fun k => (s * (pts k).1, s * (pts k).2)) ∧
    (get_points_scaled file f i (some s)).2 =
      (get_points_scaled file f i none).2 ∧
    get_points_scaled file f i none = get_points file f i := by
  by_cases h : identity_mask file i f = false
  · simp [get_points_scaled, get_points, h]
  · simp [get_points_scaled, get_points, h]

/-- C5: for every pose file of a supported format version, the
`format_major_version` of the object returned by opening the file equals
the version number encoded in the file's version attribute. -/
theorem format_major_version_spec (file : PoseFileV4)
    (h : file.version = 3 ∨ file.version = 4 ∨ file.version = 5) :
    (open_pose_file file).map format_major_version = some file.version := by
  rcases h with h | h | h <;> simp [open_pose_file, format_major_version, h]

/-- Witness for C5: the sample file encodes version 4 and opening it
yields a reader reporting format major version 4. -/
theorem format_major_version_spec_witness :
    (sampleFile.version = 3 ∨ sampleFile.version = 4 ∨
      sampleFile.version = 5) ∧
    (open_pose_file sampleFile).map format_major_version =
      some sampleFile.version :=
  ⟨Or.inr (Or.inl rfl),
    format_major_version_spec sampleFile (Or.inr (Or.inl rfl))⟩

/-- Every element of a list of naturals is bounded by `foldr max 0`. -/
lemma le_foldr_max (l : List Nat) : ∀ e ∈ l, e ≤ l.foldr max 0 := by
  induction l with
  | nil => intro e he; cases he
  | cons x xs ih =>
    intro e he
    rcases List.mem_cons.mp he with rfl | hxs
    · exact le_max_left _ _
    · exact le_trans (ih e hxs) (le_max_right _ _)

/-- For a non-empty list of naturals, `foldr max 0` is attained. -/
lemma foldr_max_mem (l : List Nat) (h : l ≠ []) : l.foldr max 0 ∈ l := by
  induction l with
  | nil => exact absurd rfl h
  | cons x xs ih =>
    cases hxs : xs with
    | nil => simp [hxs]
    | cons y ys =>
      rw [← hxs]
      have hne : xs ≠ [] := by simp [hxs]
      rcases le_total x (xs.foldr max 0) with hle | hle
      · rw [List.foldr_cons, max_eq_right hle]
        exact List.mem_cons_of_mem _ (ih hne)
      · rw [List.foldr_cons, max_eq_left hle]
        exact List.mem_cons_self _ _

/-- C3: when a V4 pose file is loaded, `num_identities` is the maximum
`instance_embed_id` among detections the `id_mask` marks valid (it is one
of those embed ids and bounds them all, whenever any valid detection
exists), and the `identities` list is exactly `0 .. num_identities - 1`
in strictly ascending order. -/
theorem num_identities_spec (file : PoseFileV4) :
    identities file = List.range (num_identities file) ∧
    List.Pairwise (· < ·) (identities file) ∧
    (validEmbeds file ≠ [] →
      num_identities file ∈ validEmbeds file ∧
      ∀ e ∈ validEmbeds file, e ≤ num_identities file) := by
  refine ⟨rfl, List.pairwise_lt_range _, fun h => ⟨?_, ?_⟩⟩
  · exact foldr_max_mem _ h
  · exact le_foldr_max _

/-- Witness for C3: the sample file has valid detections, and
`num_identities` is attained and maximal among its valid embed ids. -/
theorem num_identities_spec_witness :
    validEmbeds sampleFile ≠ [] ∧
    (num_identities sampleFile ∈ validEmbeds sampleFile ∧
      ∀ e ∈ validEmbeds sampleFile, e ≤ num_identities sampleFile) :=
  ⟨by decide, (num_identities_spec sampleFile).2.2 (by decide)⟩

/-- C4: after loading a V4 pose file, `identity_mask[i, f]` is true iff at
least one keypoint excluding the last two has non-zero confidence
(`point_mask` true) for identity `i` at frame `f`. -/
theorem identity_mask_iff (file : PoseFileV4) (i f : Nat) :
    identity_mask file i f = true ↔
      ∃ k, k < file.keypoints - 2 ∧ point_mask file i f k = true := by
  unfold identity_mask
  rw [Bool.not_eq_true', beq_eq_false_iff_ne, Ne, List.countP_eq_zero]
  push_neg
  simp [List.mem_range]

namespace SafeName

/-- Every character the first substitution emits is alphanumeric or an
underscore. -/
lemma subNonAlnumAux_mem :
    ∀ (l : List Char) (b : Bool), ∀ c ∈ subNonAlnumAux b l,
      isAlnumAscii c = true ∨ c = '_' := by
  intro l
  induction l with
  | nil => intro b c hc; cases hc
  | cons x xs ih =>
    intro b c hc
    by_cases hx : isAlnumAscii x = true
    · simp only [subNonAlnumAux, if_pos hx] at hc
      rcases List.mem_cons.mp hc with rfl | h
      · exact Or.inl hx
      · exact ih false c h
    · cases b with
      | true =>
        simp only [subNonAlnumAux, if_neg hx, if_true] at hc
        exact ih true c hc
      | false =>
        simp only [subNonAlnumAux, if_neg hx, if_false] at hc
        rcases List.mem_cons.mp hc with rfl | h
        · exact Or.inr rfl
        · exact ih true c h

/-- The first substitution never emits two consecutive underscores, and
while inside a run it can only emit an alphanumeric character next. -/
lemma subNonAlnumAux_chain :
    ∀ (l : List Char) (b : Bool),
      List.Chain' noDoubleUnderscore (subNonAlnumAux b l) ∧
      (b = true → ∀ y, (subNonAlnumAux b l).head? = some y →
        isAlnumAscii y = true) := by
  intro l
  induction l with
  | nil =>
    intro b
    exact ⟨List.chain'_nil, by intro _ y hy; cases hy⟩
  | cons x xs ih =>
    intro b
    by_cases hx : isAlnumAscii x = true
    · have e : subNonAlnumAux b (x :: xs) = x :: subNonAlnumAux false xs := by
        simp only [subNonAlnumAux, if_pos hx]
      constructor
      · rw [e, List.chain'_cons']
        refine ⟨?_, (ih false).1⟩
        rintro y _ ⟨hx', _⟩
        subst hx'
        exact absurd hx (by decide)
      · intro _ y hy
        rw [e] at hy
        simp only [List.head?_cons, Option.some.injEq] at hy
        subst hy
        exact hx
    · cases b with
      | true =>
        have e : subNonAlnumAux true (x :: xs) = subNonAlnumAux true xs := by
          simp only [subNonAlnumAux, if_neg hx, if_true]
        refine ⟨?_, ?_⟩
        · rw [e]; exact (ih true).1
        · intro _ y hy
          rw [e] at hy
          exact (ih true).2 rfl y hy
      | false =>
        have e : subNonAlnumAux false (x :: xs) =
            '_' :: subNonAlnumAux true xs := by
          simp only [subNonAlnumAux, if_neg hx, Bool.false_eq_true, if_false]
        refine ⟨?_, ?_⟩
        · rw [e, List.chain'_cons']
          refine ⟨?_, (ih true).1⟩
          rintro y hy ⟨_, hy'⟩
          have halnum := (ih true).2 rfl y (Option.mem_def.mp hy)
          subst hy'
          exact absurd halnum (by decide)
        · intro hb
          cases hb

/-- The head of `dropWhile p l`, when present, does not satisfy `p`. -/
lemma head_dropWhile_false {α : Type} (p : α → Bool) :
    ∀ (l : List α) (y : α), (l.dropWhile p).head? = some y → p y = false := by
  intro l
  induction l with
  | nil => intro y hy; cases hy
  | cons x xs ih =>
    intro y hy
    by_cases hx : p x = true
    · rw [List.dropWhile_cons_of_pos hx] at hy
      exact ih y hy
    · rw [List.dropWhile_cons_of_neg hx] at hy
      simp only [List.head?_cons, Option.some.injEq] at hy
      subst hy
      exact Bool.not_eq_true _ ▸ Bool.eq_false_iff.mpr hx

/-- Stripping trailing underscores only removes characters. -/
lemma rstrip_subset (l : List Char) : ∀ c ∈ rstripUnderscore l, c ∈ l := by
  intro c hc
  unfold rstripUnderscore at hc
  rw [List.mem_reverse] at hc
  have h := (List.dropWhile_sublist _).subset hc
  exact List.mem_reverse.mp h

/-- Stripping trailing underscores preserves the no-double-underscore
chain. -/
lemma rstrip_chain {l : List Char}
    (h : List.Chain' noDoubleUnderscore l) :
    List.Chain' noDoubleUnderscore (rstripUnderscore l) := by
  have hsuf : (l.reverse.dropWhile (fun c => c == '_')) <:+ l.reverse :=
    List.dropWhile_suffix _
  have hpre : rstripUnderscore l <+: l := by
    have := List.reverse_prefix.mpr hsuf
    rwa [List.reverse_reverse] at this
  exact h.prefix hpre

/-- After stripping trailing underscores, the last character (if any) is
not an underscore. -/
lemma rstrip_getLast (l : List Char) :
    (rstripUnderscore l).getLast? ≠ some '_' := by
  unfold rstripUnderscore
  rw [List.getLast?_reverse]
  intro hy
  have := head_dropWhile_false (fun c => c == '_') l.reverse '_' hy
  simp at this

/-- Collapsing consecutive underscores is the identity on a list with no
two consecutive underscores (whose head is moreover not an underscore
when the state says the previous character was one). -/
lemma collapseAux_eq_self :
    ∀ (l : List Char) (b : Bool),
      List.Chain' noDoubleUnderscore l →
      (b = true → ∀ y, l.head? = some y → y ≠ '_') →
      collapseAux b l = l := by
  intro l
  induction l with
  | nil => intro b _ _; rfl
  | cons x xs ih =>
    intro b hchain hhead
    rw [List.chain'_cons'] at hchain
    obtain ⟨hx, hxs⟩ := hchain
    by_cases hu : (x == '_') = true
    · have hx' : x = '_' := by simpa using hu
      cases b with
      | true => exact absurd hx' (hhead rfl x rfl)
      | false =>
        simp only [collapseAux, if_pos hu, Bool.false_eq_true, if_false]
        subst hx'
        congr 1
        refine ih true hxs ?_
        intro _ y hy hy'
        exact hx y (Option.mem_def.mpr hy) ⟨rfl, hy'⟩
    · simp only [collapseAux, if_neg hu]
      congr 1
      refine ih false hxs ?_
      intro hb
      cases hb

end SafeName

open SafeName in
/-- C10: for every input string, `Project.to_safe_name` returns a string
of only ASCII letters, digits and underscores, with no two consecutive
underscores and no trailing underscore; a leading underscore and the
empty string are possible outputs. -/
theorem to_safe_name_spec :
    (∀ s : String, ∀ c ∈ (to_safe_name s).data,
        isAlnumAscii c = true ∨ c = '_') ∧
    (∀ s : String,
        List.Chain' noDoubleUnderscore (to_safe_name s).data) ∧
    (∀ s : String, (to_safe_name s).data.getLast? ≠ some '_') ∧
    to_safe_name "!a" = "_a" ∧ to_safe_name "!!!" = "" := by
  have key : ∀ s : String,
      (to_safe_name s).data = rstripUnderscore (subNonAlnum s.data) := by
    intro s
    show collapseAux false (rstripUnderscore (subNonAlnum s.data)) = _
    exact collapseAux_eq_self _ false
      (rstrip_chain (subNonAlnumAux_chain s.data false).1)
      (fun h => absurd h (by decide))
  refine ⟨?_, ?_, ?_, ?_, ?_⟩
  · intro s c hc
    rw [key] at hc
    exact subNonAlnumAux_mem s.data false c (rstrip_subset _ c hc)
  · intro s
    rw [key]
    exact rstrip_chain (subNonAlnumAux_chain s.data false).1
  · intro s
    rw [key]
    exact rstrip_getLast _
  · rfl
  · rfl

namespace Labels

/-- Every block produced from frame index `i` onward starts at or after
`i`. -/
lemma encodeFrom_start_ge :
    ∀ (n : Nat) (l : List Label), l.length ≤ n →
      ∀ i, ∀ b ∈ encodeFrom i l, i ≤ b.start := by
  intro n
  induction n with
  | zero =>
    intro l hl i b hb
    have hnil : l = [] := List.length_eq_zero.mp (Nat.le_zero.mp hl)
    subst hnil
    simp [encodeFrom] at hb
  | succ m ih =>
    intro l hl i b hb
    cases l with
    | nil => simp [encodeFrom] at hb
    | cons x xs =>
      have hxs : xs.length ≤ m := by
        simp only [List.length_cons] at hl
        omega
      simp only [encodeFrom] at hb
      split_ifs at hb with hx
      · have := ih xs hxs (i + 1) b hb
        omega
      · rcases List.mem_cons.mp hb with rfl | hb'
        · exact le_refl _
        · have hrest : (xs.dropWhile (fun y => decide (y = x))).length ≤ m :=
            le_trans (List.dropWhile_sublist _).length_le hxs
          have := ih _ hrest _ b hb'
          omega

/-- Frames before `i` decode to NONE under the blocks encoded from `i`. -/
lemma decodeAt_encode_lt (n : Nat) (l : List Label) (hl : l.length ≤ n)
    (i f : Nat) (hf : f < i) : decodeAt (encodeFrom i l) f = Label.none_ := by
  unfold decodeAt
  have hnone : (encodeFrom i l).find?
      (fun b => decide (b.start ≤ f) && decide (f ≤ b.stop)) = none := by
    rw [List.find?_eq_none]
    intro b hb
    have hstart := encodeFrom_start_ge n l hl i b hb
    simp only [Bool.and_eq_true, decide_eq_true_eq, not_and]
    intro hle
    omega
  rw [hnone]
  rfl

/-- Decoding the blocks encoded from `i` recovers the label at every
in-range frame offset. -/
lemma decodeAt_encode (n : Nat) :
    ∀ (l : List Label), l.length ≤ n → ∀ i f, f < l.length →
      decodeAt (encodeFrom i l) (i + f) = l.getD f Label.none_ := by
  induction n with
  | zero =>
    intro l hl i f hf
    omega
  | succ m ih =>
    intro l hl i f hf
    cases l with
    | nil => simp at hf
    | cons x xs =>
      have hxs : xs.length ≤ m := by
        simp only [List.length_cons] at hl
        omega
      simp only [encodeFrom]
      split_ifs with hx
      · cases f with
        | zero =>
          have hzero : i + 0 = i := rfl
          rw [hzero, decodeAt_encode_lt m xs hxs (i + 1) i (by omega)]
          simp [hx]
        | succ g =>
          have harith : i + (g + 1) = (i + 1) + g := by omega
          have hg : g < xs.length := by
            simp only [List.length_cons] at hf
            omega
          rw [harith, ih xs hxs (i + 1) g hg]
          simp
      · by_cases hfr : f ≤ (xs.takeWhile (fun y => decide (y = x))).length
        · unfold decodeAt
          rw [List.find?_cons_of_pos _ (by
            simp only [Bool.and_eq_true, decide_eq_true_eq]
            omega)]
          simp only [Option.map_some', Option.getD_some, blockValue]
          cases f with
          | zero =>
            simp only [List.getD_cons_zero]
            cases x with
            | behavior => simp
            | not_behavior => simp
            | none_ => exact absurd rfl hx
          | succ g =>
            rw [List.getD_cons_succ]
            have hgr : g < (xs.takeWhile (fun y => decide (y = x))).length := by
              omega
            conv_rhs =>
              rw [← List.takeWhile_append_dropWhile
                (p := fun y => decide (y = x)) (l := xs)]
            rw [List.getD_append _ _ _ _ hgr]
            rw [List.getD_eq_getElem _ _ hgr]
            have hm := List.getElem_mem hgr
            have hy := List.mem_takeWhile_imp hm
            rw [of_decide_eq_true hy]
            cases x with
            | behavior => simp
            | not_behavior => simp
            | none_ => exact absurd rfl hx
        · unfold decodeAt
          rw [List.find?_cons_of_neg _ (by
            simp only [Bool.and_eq_true, decide_eq_true_eq, not_and]
            intro _
            omega)]
          have hrest : (xs.dropWhile (fun y => decide (y = x))).length ≤ m :=
            le_trans (List.dropWhile_sublist _).length_le hxs
          have hsplit : (xs.takeWhile (fun y => decide (y = x))).length +
              (xs.dropWhile (fun y => decide (y = x))).length = xs.length := by
            conv_rhs =>
              rw [← List.takeWhile_append_dropWhile
                (p := fun y => decide (y = x)) (l := xs)]
            rw [List.length_append]
          have hflt : f - (xs.takeWhile (fun y => decide (y = x))).length - 1 <
              (xs.dropWhile (fun y => decide (y = x))).length := by
            simp only [List.length_cons] at hf
            omega
          have harith : i + f =
              (i + (xs.takeWhile (fun y => decide (y = x))).length + 1) +
                (f - (xs.takeWhile (fun y => decide (y = x))).length - 1) := by
            omega
          rw [harith]
          have hrec := ih _ hrest
            (i + (xs.takeWhile (fun y => decide (y = x))).length + 1)
            (f - (xs.takeWhile (fun y => decide (y = x))).length - 1) hflt
          unfold decodeAt at hrec
          rw [hrec]
          cases f with
          | zero => omega
          | succ g =>
            rw [List.getD_cons_succ]
            conv_rhs =>
              rw [← List.takeWhile_append_dropWhile
                (p := fun y => decide (y = x)) (l := xs)]
            rw [List.getD_append_right _ _ _ _ (by omega)]
            congr 1
            omega

/-- Loading an exported track with its own frame count reproduces it. -/
lemma track_round_trip (t : TrackLabels) (n : Nat)
    (h : t.labels.length = n) : TrackLabels.load n t.export = t := by
  cases t with
  | mk l =>
    simp only at h
    unfold TrackLabels.load TrackLabels.export
    congr 1
    apply List.ext_getElem
    · simp [h]
    · intro k h1 h2
      rw [List.getElem_map, List.getElem_range]
      have hk : k < l.length := by
        simpa [h] using h2
      have hdec := decodeAt_encode l.length l (le_refl _) 0 k hk
      rw [Nat.zero_add] at hdec
      rw [hdec, List.getD_eq_getElem _ _ hk]

/-- C9: for every `VideoLabels` object whose tracks all have `num_frames`
frames, `VideoLabels.load(v.export())` yields an object with the same
filename, the same `num_frames`, and for every identity and behavior
present in `v` an equal per-frame label track; identities or behaviors
absent from `v` remain absent (the association structures are equal). -/
theorem video_labels_round_trip (v : VideoLabels)
    (h : ∀ p ∈ v.identity_labels, ∀ q ∈ p.2,
        q.2.labels.length = v.num_frames) :
    VideoLabels.load (VideoLabels.export v) = v := by
  cases v with
  | mk fn n ils =>
    simp only at h
    unfold VideoLabels.load VideoLabels.export
    simp only
    congr 1
    rw [List.map_map]
    have hmap : ∀ p ∈ ils,
        ((fun p : String × List (String × List LabelBlock) =>
            (p.1, p.2.map (fun q => (q.1, TrackLabels.load n q.2)))) ∘
         (fun p : String × List (String × TrackLabels) =>
            (p.1, p.2.map (fun q => (q.1, q.2.export))))) p = p := by
      intro p hp
      cases p with
      | mk ident tracks =>
        simp only [Function.comp_apply]
        rw [List.map_map]
        have hinner : ∀ q ∈ tracks,
            ((fun q : String × List LabelBlock =>
                (q.1, TrackLabels.load n q.2)) ∘
             (fun q : String × TrackLabels => (q.1, q.2.export))) q = q := by
          intro q hq
          cases q with
          | mk beh t =>
            simp only [Function.comp_apply]
            rw [track_round_trip t n (h _ hp _ hq)]
        rw [List.map_congr_left hinner, List.map_id']
    rw [List.map_congr_left hmap, List.map_id']

/-- Witness for C9: the sample video labels satisfy the length invariant
and round-trip exactly. -/
theorem video_labels_round_trip_witness :
    (∀ p ∈ sampleVideoLabels.identity_labels, ∀ q ∈ p.2,
        q.2.labels.length = sampleVideoLabels.num_frames) ∧
    VideoLabels.load (VideoLabels.export sampleVideoLabels) =
      sampleVideoLabels :=
  ⟨by decide, video_labels_round_trip sampleVideoLabels (by decide)⟩

end Labels

namespace Proj

/-- Closed form of the identity loop: the label blocks in identity order,
the group blocks with group ids counting up from `gid`, and the final
group id. -/
lemma identityLoop_spec (P : LabeledFeaturesInput) (v : String) :
    ∀ (is : List Nat) (gid : Nat),
      identityLoop P v is gid =
        (is.map (nonNoneLabels P v),
         (is.enumFrom gid).map
           (fun e => List.replicate (blockLen P v e.2) e.1),
         gid + is.length) := by
  intro is
  induction is with
  | nil => intro gid; simp [identityLoop]
  | cons i is ih =>
    intro gid
    simp only [identityLoop, ih (gid + 1), List.map_cons, List.enumFrom_cons,
      List.length_cons, Prod.mk.injEq]
    refine ⟨trivial, trivial, by omega⟩

/-- Closed form of the video loop: both block lists follow the flattened
(video, identity) traversal, with group ids enumerated from `gid`. -/
lemma videoLoop_spec (P : LabeledFeaturesInput) :
    ∀ (vs : List String) (gid : Nat),
      videoLoop P vs gid =
        ((vs.flatMap (fun v => (List.range (P.nidentities v)).map
            (fun i => (v, i)))).map (fun p => nonNoneLabels P p.1 p.2),
         ((vs.flatMap (fun v => (List.range (P.nidentities v)).map
            (fun i => (v, i)))).enumFrom gid).map
           (fun e => List.replicate (blockLen P e.2.1 e.2.2) e.1)) := by
  intro vs
  induction vs with
  | nil => intro gid; simp [videoLoop]
  | cons v vs ih =>
    intro gid
    simp only [videoLoop, identityLoop_spec, ih, List.flatMap_cons,
      List.map_append, List.enumFrom_append, List.enumFrom_map,
      List.map_map, List.length_map, List.length_range, Prod.mk.injEq]
    constructor
    · congr 1
    · congr 1

/-- C6: the groups vector built by `Project.get_labeled_features` is the
concatenation, over the (video, identity) traversal enumerated from 0, of
constant blocks whose group id is the traversal position — so it is
constant within each block and strictly increasing across blocks — and
the traversal is deterministic: videos sorted lexicographically, and
within each video the identities `0 .. n-1` ascending. -/
theorem groups_vector_spec (P : LabeledFeaturesInput) :
    groupsVector P =
      ((traversal P).enum.map
        (fun e => List.replicate (blockLen P e.2.1 e.2.2) e.1)).flatten ∧
    List.Sorted (· ≤ ·) (sortedVideos P) ∧
    traversal P = (sortedVideos P).flatMap
      (fun v => (List.range (P.nidentities v)).map (fun i => (v, i))) ∧
    List.Pairwise (· < ·) ((traversal P).enum.map Prod.fst) := by
  refine ⟨?_, ?_, rfl, ?_⟩
  · unfold groupsVector
    rw [videoLoop_spec]
    rfl
  · exact List.sorted_mergeSort' _
  · rw [List.enum_map_fst]
    exact List.pairwise_lt_range _

/-- C7: the labels vector of `Project.get_labeled_features` is the
concatenation, over the same (video, identity) traversal, of exactly the
non-NONE label values of each identity, and it has the same length as the
groups vector. -/
theorem labels_vector_spec (P : LabeledFeaturesInput) :
    labelsVector P =
      ((traversal P).map (fun p => nonNoneLabels P p.1 p.2)).flatten ∧
    (labelsVector P).length = (groupsVector P).length := by
  have h1 : labelsVector P =
      ((traversal P).map (fun p => nonNoneLabels P p.1 p.2)).flatten := by
    unfold labelsVector
    rw [videoLoop_spec]
    rfl
  have h2 : groupsVector P =
      ((traversal P).enum.map
        (fun e => List.replicate (blockLen P e.2.1 e.2.2) e.1)).flatten := by
    unfold groupsVector
    rw [videoLoop_spec]
    rfl
  refine ⟨h1, ?_⟩
  rw [h1, h2, List.length_flatten, List.length_flatten, List.map_map,
    List.map_map]
  congr 1
  have hrep : (traversal P).enum.map
      (List.length ∘ fun e => List.replicate (blockLen P e.2.1 e.2.2) e.1) =
      (traversal P).enum.map (fun e => blockLen P e.2.1 e.2.2) := by
    apply List.map_congr_left
    intro e _
    simp
  rw [hrep]
  have hsnd : (traversal P).enum.map (fun e => blockLen P e.2.1 e.2.2) =
      ((traversal P).enum.map Prod.snd).map (fun p => blockLen P p.1 p.2) := by
    rw [List.map_map]
    rfl
  rw [hsnd, List.enum_map_snd]
  rfl

end Proj

namespace Circ

open Real

/-- Shifting a sample shifts its radian angle linearly. -/
lemma degToAng_add (x c : ℝ) :
    degToAng (x + c) = degToAng x + c * (2 * π) / 360 := by
  unfold degToAng
  ring

/-- The unit vector of a sample is unchanged by subtracting an integer
number of turns from its radian angle. -/
lemma exp_degToAng_sub_int (y : ℝ) (k : ℤ) :
    Complex.exp (((degToAng y - k * (2 * π) : ℝ) : ℂ) * Complex.I) =
      Complex.exp ((degToAng y : ℂ) * Complex.I) := by
  rw [Complex.ofReal_sub, sub_mul, Complex.exp_sub]
  rw [show ((k * (2 * π) : ℝ) : ℂ) * Complex.I =
      (k : ℂ) * (2 * (π : ℂ) * Complex.I) by push_cast; ring]
  rw [Complex.exp_int_mul_two_pi_mul_I, div_one]

/-- `wrap360` subtracts an integer multiple of 360. -/
lemma wrap360_sub (y : ℝ) : ∃ k : ℤ, wrap360 y = y - k * 360 := by
  refine ⟨toIcoDiv (by norm_num : (0:ℝ) < 360) (-180) y, ?_⟩
  unfold wrap360 toIcoMod
  rw [zsmul_eq_mul]

/-- The unit vector of a wrapped sample equals that of the raw sample. -/
lemma exp_degToAng_wrap (y : ℝ) :
    Complex.exp ((degToAng (wrap360 y) : ℂ) * Complex.I) =
      Complex.exp ((degToAng y : ℂ) * Complex.I) := by
  obtain ⟨k, hk⟩ := wrap360_sub y
  have h1 : degToAng (wrap360 y) = degToAng y - k * (2 * π) := by
    rw [hk]
    unfold degToAng
    ring
  rw [h1, exp_degToAng_sub_int]

/-- Shifting all samples by `c` and re-wrapping rotates the resultant
vector by the radian equivalent of `c`. -/
lemma resultant_shift (xs : List ℝ) (c : ℝ) :
    resultant (xs.map (fun x => wrap360 (x + c))) =
      Complex.exp (((c * (2 * π) / 360 : ℝ) : ℂ) * Complex.I) *
        resultant xs := by
  unfold resultant
  rw [List.map_map, ← List.sum_map_mul_left]
  refine congrArg List.sum (List.map_congr_left ?_)
  intro x _
  simp only [Function.comp_apply]
  rw [exp_degToAng_wrap, degToAng_add, Complex.ofReal_add, add_mul,
    Complex.exp_add]
  ring

/-- Rotating a nonzero complex number by `exp(θ i)` shifts its argument
by `θ` up to an integer number of turns. -/
lemma arg_exp_mul (R : ℂ) (hR : R ≠ 0) (θ : ℝ) :
    ∃ k : ℤ, Complex.arg (Complex.exp ((θ : ℂ) * Complex.I) * R) =
      θ + Complex.arg R + k * (2 * π) := by
  set Rrot := Complex.exp ((θ : ℂ) * Complex.I) * R with hRrot
  have habs : Complex.abs Rrot = Complex.abs R := by
    rw [hRrot, map_mul, Complex.abs_exp_ofReal_mul_I, one_mul]
  have habsne : ((Complex.abs R : ℝ) : ℂ) ≠ 0 := by
    rw [Complex.ofReal_ne_zero]
    exact Complex.abs.ne_zero hR
  have hexp : Complex.exp ((Complex.arg Rrot : ℂ) * Complex.I) =
      Complex.exp (((θ + Complex.arg R : ℝ) : ℂ) * Complex.I) := by
    refine mul_left_cancel₀ habsne ?_
    calc ((Complex.abs R : ℝ) : ℂ) *
          Complex.exp ((Complex.arg Rrot : ℂ) * Complex.I)
        = ((Complex.abs Rrot : ℝ) : ℂ) *
          Complex.exp ((Complex.arg Rrot : ℂ) * Complex.I) := by rw [habs]
      _ = Rrot := Complex.abs_mul_exp_arg_mul_I Rrot
      _ = Complex.exp ((θ : ℂ) * Complex.I) *
          (((Complex.abs R : ℝ) : ℂ) *
            Complex.exp ((Complex.arg R : ℂ) * Complex.I)) := by
          rw [Complex.abs_mul_exp_arg_mul_I R, hRrot]
      _ = ((Complex.abs R : ℝ) : ℂ) *
          Complex.exp (((θ + Complex.arg R : ℝ) : ℂ) * Complex.I) := by
          rw [Complex.ofReal_add, add_mul, Complex.exp_add]
          ring
  rw [Complex.exp_eq_exp_iff_exists_int] at hexp
  obtain ⟨n, hn⟩ := hexp
  refine ⟨n, ?_⟩
  have hI : ((Complex.arg Rrot : ℝ) : ℂ) * Complex.I =
      ((θ + Complex.arg R + n * (2 * π) : ℝ) : ℂ) * Complex.I := by
    rw [hn]
    push_cast
    ring
  have := mul_right_cancel₀ Complex.I_ne_zero hI
  exact_mod_cast this

/-- The resultant of `[-180, 0]` vanishes: the two unit vectors cancel. -/
lemma resultant_m180_0 : resultant [(-180 : ℝ), 0] = 0 := by
  unfold resultant
  have h1 : degToAng (-180) = 0 := by unfold degToAng; norm_num
  have h2 : degToAng 0 = π := by
    unfold degToAng
    field_simp
    ring
  simp only [List.map_cons, List.map_nil, List.sum_cons, List.sum_nil,
    h1, h2]
  rw [show ((0 : ℝ) : ℂ) * Complex.I = 0 by simp, Complex.exp_zero,
    Complex.exp_pi_mul_I]
  ring

/-- The resultant of `[0, -180]` vanishes as well. -/
lemma resultant_0_m180 : resultant [(0 : ℝ), -180] = 0 := by
  unfold resultant
  have h1 : degToAng (-180) = 0 := by unfold degToAng; norm_num
  have h2 : degToAng 0 = π := by
    unfold degToAng
    field_simp
    ring
  simp only [List.map_cons, List.map_nil, List.sum_cons, List.sum_nil,
    h1, h2]
  rw [show ((0 : ℝ) : ℂ) * Complex.I = 0 by simp, Complex.exp_zero,
    Complex.exp_pi_mul_I]
  ring

/-- The circular mean of a zero-resultant sample list is the lower domain
bound `-180` (scipy's `arctan2(0, 0) = 0` convention). -/
lemma circular_mean_of_resultant_zero (xs : List ℝ)
    (h : resultant xs = 0) : circular_mean xs = -180 := by
  unfold circular_mean
  rw [h, Complex.arg_zero]
  rw [(toIcoMod_eq_self two_pi_pos).mpr
    ⟨le_refl 0, by rw [zero_add]; exact two_pi_pos⟩]
  norm_num

/-- Wrapping a value already inside [-180, 180) is the identity. -/
lemma wrap360_eq_self {y : ℝ} (h1 : -180 ≤ y) (h2 : y < 180) :
    wrap360 y = y := by
  unfold wrap360
  exact (toIcoMod_eq_self (by norm_num)).mpr ⟨h1, by norm_num [h2]⟩

/-- `wrap360 180 = -180`. -/
lemma wrap360_180 : wrap360 (180 : ℝ) = -180 := by
  unfold wrap360
  rw [toIcoMod_eq_iff]
  refine ⟨by norm_num, 1, by norm_num⟩

/-- `circular_mean` unfolded. -/
lemma circular_mean_def (xs : List ℝ) :
    circular_mean xs =
      toIcoMod Real.two_pi_pos 0 (Complex.arg (resultant xs)) *
        (180 - (-180)) / (2 * π) + (-180) := rfl

/-- `wrap360` unfolded. -/
lemma wrap360_def (y : ℝ) :
    wrap360 y = toIcoMod (show (0:ℝ) < 360 by norm_num) (-180) y := rfl

/-- C8 (amended): for the angular generator's circular window mean (the
`"mean"` entry of `ClosestFovAngles._window_operations_circular_2`),
shifting every input angle in [-180, 180) by a constant offset and
re-wrapping into range shifts the circular mean by the same offset modulo
wrap-around, provided the resultant vector of the inputs is nonzero. -/
theorem circular_mean_shift (xs : List ℝ) (c : ℝ)
    (_hin : ∀ x ∈ xs, -180 ≤ x ∧ x < 180)
    (hres : resultant xs ≠ 0) :
    circular_mean (xs.map (fun x => wrap360 (x + c))) =
      wrap360 (circular_mean xs + c) := by
  obtain ⟨k, hk⟩ := arg_exp_mul (resultant xs) hres (c * (2 * π) / 360)
  have hA' : Complex.arg (resultant (xs.map (fun x => wrap360 (x + c)))) =
      c * (2 * π) / 360 + Complex.arg (resultant xs) + k * (2 * π) := by
    rw [resultant_shift xs c]
    exact hk
  rw [wrap360_def (circular_mean xs + c),
    circular_mean_def (xs.map (fun x => wrap360 (x + c))),
    circular_mean_def xs]
  rw [eq_comm, toIcoMod_eq_iff]
  constructor
  · obtain ⟨h0, hlt⟩ := toIcoMod_mem_Ico two_pi_pos 0
      (Complex.arg (resultant (xs.map (fun x => wrap360 (x + c)))))
    rw [zero_add] at hlt
    rw [Set.mem_Ico]
    have hden : (0:ℝ) < 2 * π := two_pi_pos
    constructor
    · have hnn : 0 ≤ toIcoMod two_pi_pos 0
          (Complex.arg (resultant (xs.map (fun x => wrap360 (x + c))))) *
          (180 - (-180)) / (2 * π) :=
        div_nonneg (mul_nonneg h0 (by norm_num)) (le_of_lt hden)
      linarith
    · have hmul := mul_lt_mul_of_pos_right hlt (show (0:ℝ) < 360 by norm_num)
      have hfrac : toIcoMod two_pi_pos 0
          (Complex.arg (resultant (xs.map (fun x => wrap360 (x + c))))) *
          (180 - (-180)) / (2 * π) < 360 := by
        rw [div_lt_iff₀ hden]
        nlinarith
      linarith
  · refine ⟨toIcoDiv two_pi_pos 0
        (Complex.arg (resultant (xs.map (fun x => wrap360 (x + c))))) -
      toIcoDiv two_pi_pos 0 (Complex.arg (resultant xs)) - k, ?_⟩
    have hT : toIcoMod two_pi_pos 0 (Complex.arg (resultant xs)) =
        Complex.arg (resultant xs) -
          toIcoDiv two_pi_pos 0 (Complex.arg (resultant xs)) • (2 * π) := rfl
    have hT' : toIcoMod two_pi_pos 0
        (Complex.arg (resultant (xs.map (fun x => wrap360 (x + c))))) =
        Complex.arg (resultant (xs.map (fun x => wrap360 (x + c)))) -
          toIcoDiv two_pi_pos 0
            (Complex.arg (resultant (xs.map (fun x => wrap360 (x + c))))) •
            (2 * π) := rfl
    rw [hT, hT', hA']
    push_cast [zsmul_eq_mul]
    field_simp
    ring

/-- Counterexample to C8 as stated: at the in-range input angles
`[-180, 0]` with offset `180`, the resultant vanishes and scipy's
`arctan2(0, 0) = 0` convention pins both circular means at `-180`, so the
mean does not shift by the offset. -/
theorem circular_mean_shift_counterexample :
    (-180 : ℝ) ∈ Set.Ico (-180 : ℝ) 180 ∧
    (0 : ℝ) ∈ Set.Ico (-180 : ℝ) 180 ∧
    circular_mean ([(-180 : ℝ), 0].map (fun x => wrap360 (x + 180))) ≠
      wrap360 (circular_mean [(-180 : ℝ), 0] + 180) := by
  refine ⟨by norm_num, by norm_num, ?_⟩
  have hmap : [(-180 : ℝ), 0].map (fun x => wrap360 (x + 180)) =
      [0, -180] := by
    simp only [List.map_cons, List.map_nil]
    rw [show (-180 : ℝ) + 180 = 0 by norm_num,
      show (0 : ℝ) + 180 = 180 by norm_num,
      wrap360_eq_self (by norm_num) (by norm_num), wrap360_180]
  rw [hmap, circular_mean_of_resultant_zero _ resultant_0_m180,
    circular_mean_of_resultant_zero _ resultant_m180_0]
  rw [show (-180 : ℝ) + 180 = 0 by norm_num,
    wrap360_eq_self (by norm_num) (by norm_num)]
  norm_num

/-- Witness for C8 (amended): the single angle `0` lies in range, its
resultant is the nonzero `-1`, and the shifted circular mean obeys the
offset law at offset `90`. -/
theorem circular_mean_shift_witness :
    (∀ x ∈ [(0 : ℝ)], -180 ≤ x ∧ x < 180) ∧
    resultant [(0 : ℝ)] ≠ 0 ∧
    circular_mean ([(0 : ℝ)].map (fun x => wrap360 (x + 90))) =
      wrap360 (circular_mean [(0 : ℝ)] + 90) := by
  have h2 : resultant [(0 : ℝ)] = -1 := by
    unfold resultant
    have hang : degToAng 0 = π := by
      unfold degToAng
      field_simp
      ring
    simp only [List.map_cons, List.map_nil, List.sum_cons, List.sum_nil,
      hang]
    rw [Complex.exp_pi_mul_I]
    ring
  have h1 : ∀ x ∈ [(0 : ℝ)], -180 ≤ x ∧ x < 180 := by
    intro x hx
    simp only [List.mem_singleton] at hx
    norm_num [hx]
  exact ⟨h1, by rw [h2]; norm_num,
    circular_mean_shift [(0 : ℝ)] 90 h1 (by rw [h2]; norm_num)⟩

end Circ

end JABS
